import Mathlib

/-!
Verification of the evaluation pipeline in `test/test_reconstruction.py`.

Arrays are modelled as lists of real numbers tagged with the numpy dtype
(`int16` or `float32`); exact real arithmetic stands in for float arithmetic.
The places where the script can produce non-finite floats (the division by
`sum(r**2)` in the dynamic-range correction, and `math.log10`) are modelled
with an explicit IEEE-style value type `PyF` carrying `nan` and the two
infinities; `math.log10` and Python `int()` on non-finite values are modelled
as `Except`, standing for a raised `ValueError`.
-/

/-- Numpy dtype tag: 16-bit fixed point or floating point. -/
inductive Dtype
  | i16
  | f32
deriving DecidableEq

/-- A numpy array: a dtype tag and the sample values. -/
structure NPArray where
  dtype : Dtype
  data : List ℝ

/-- IEEE-754-style value classes for the script's float computations:
a finite value, the two infinities, or NaN. -/
inductive PyF
  | fin (x : ℝ)
  | pinf
  | ninf
  | nan

/-- IEEE negation. -/
noncomputable def pyNeg : PyF → PyF
  | .fin x => .fin (-x)
  | .pinf => .ninf
  | .ninf => .pinf
  | .nan => .nan

/-- IEEE addition: NaN is absorbing, opposite infinities give NaN. -/
noncomputable def pyAdd : PyF → PyF → PyF
  | .nan, _ => .nan
  | _, .nan => .nan
  | .fin x, .fin y => .fin (x + y)
  | .pinf, .ninf => .nan
  | .ninf, .pinf => .nan
  | .pinf, _ => .pinf
  | _, .pinf => .pinf
  | .ninf, _ => .ninf
  | _, .ninf => .ninf

/-- IEEE multiplication: NaN is absorbing, zero times infinity is NaN. -/
noncomputable def pyMul : PyF → PyF → PyF
  | .nan, _ => .nan
  | _, .nan => .nan
  | .fin x, .fin y => .fin (x * y)
  | .pinf, .fin y => if y = 0 then .nan else if 0 < y then .pinf else .ninf
  | .fin x, .pinf => if x = 0 then .nan else if 0 < x then .pinf else .ninf
  | .ninf, .fin y => if y = 0 then .nan else if 0 < y then .ninf else .pinf
  | .fin x, .ninf => if x = 0 then .nan else if 0 < x then .ninf else .pinf
  | .pinf, .pinf => .pinf
  | .pinf, .ninf => .ninf
  | .ninf, .pinf => .ninf
  | .ninf, .ninf => .pinf

/-- IEEE subtraction, as addition of the negation. -/
noncomputable def pySub (a b : PyF) : PyF := pyAdd a (pyNeg b)

/-- Squaring. -/
noncomputable def pySq (a : PyF) : PyF := pyMul a a

/-- Subtract a `PyF` from a finite real (the original samples are finite). -/
noncomputable def pySubRF (x : ℝ) (b : PyF) : PyF := pySub (.fin x) b

/-- Multiply a `PyF` scale factor by a finite real sample. -/
noncomputable def pyMulF (c : PyF) (x : ℝ) : PyF := pyMul c (.fin x)

/-- IEEE absolute value. -/
noncomputable def pyAbs : PyF → PyF
  | .fin x => .fin |x|
  | .pinf => .pinf
  | .ninf => .pinf
  | .nan => .nan

/-- Numpy scalar divided by a Python int (`array.sum() / array.size`):
division by zero yields an infinity or NaN, never an exception. -/
noncomputable def pyDivNat (a : PyF) (n : ℕ) : PyF :=
  if n = 0 then
    match a with
    | .fin x => if x = 0 then .nan else if 0 < x then .pinf else .ninf
    | b => b
  else
    match a with
    | .fin x => .fin (x / n)
    | b => b

/-- Numpy sum of a sequence of values, folding from `0.0` on the left. -/
noncomputable def pySumF (l : List PyF) : PyF := l.foldl pyAdd (.fin 0)

/-- The Python comparison `v != 0`; NaN and the infinities compare unequal. -/
noncomputable def pyNeZero : PyF → Bool
  | .fin x => if x = 0 then false else true
  | _ => true

/-- Python `math.log10` on a finite float: raises `ValueError` for
nonpositive arguments, modelled with `Except`. -/
noncomputable def mathLog10R (x : ℝ) : Except Unit ℝ :=
  if x ≤ 0 then .error () else .ok (Real.logb 10 x)

/-- Python `math.log10` on a possibly non-finite value: NaN propagates,
`+inf` maps to `+inf`, nonpositive finite values and `-inf` raise. -/
noncomputable def pyLog10 : PyF → Except Unit PyF
  | .fin x => if x ≤ 0 then .error () else .ok (.fin (Real.logb 10 x))
  | .pinf => .ok .pinf
  | .ninf => .error ()
  | .nan => .ok .nan

/-- Sum of squares, `(a ** 2).sum()`. -/
noncomputable def sumSq (l : List ℝ) : ℝ := (l.map (fun x => x ^ 2)).sum

/-- Sum of absolute values, `np.sum(np.abs(a))`. -/
noncomputable def sumAbs (l : List ℝ) : ℝ := (l.map (fun x => |x|)).sum

/-- The peak `float(np.max(np.abs(a)))`; since the entries are absolute
values the extra `0` base of the fold does not change the maximum for
nonempty input, and the empty case is guarded by the caller. -/
noncomputable def maxAbs (l : List ℝ) : ℝ := (l.map (fun x => |x|)).foldl max 0

/-- The dynamic-range factor `np.sqrt(sum(o**2) / sum(r**2))` with numpy
semantics: division by zero yields an infinity or NaN, and the square root
of a negative value (including `-inf`) is NaN. -/
noncomputable def corrFactor (So Sr : ℝ) : PyF :=
  if Sr = 0 then (if 0 < So then .pinf else .nan)
  else if So / Sr < 0 then .nan
  else .fin (Real.sqrt (So / Sr))

/-- The range-corrected reconstruction, `reconstructedArray *= corrFactor`. -/
noncomputable def corrected (o r : List ℝ) : List PyF :=
  r.map (pyMulF (corrFactor (sumSq o) (sumSq r)))

/-- Body of `PSNR` after the dtype conversion, lines 51-64 of the script.
The empty-input guard models `np.max` raising on an empty array; the final
expression `20*log10(max_value) - 10*log10(mean_square_error)` evaluates
`log10(max_value)` first, so its `ValueError` wins, as in Python. -/
noncomputable def psnrScore (o r : List ℝ) : Except Unit PyF :=
  if o = [] then .error ()
  else
    let mse := pyDivNat
      (pySumF (List.zipWith (fun x y => pySq (pySubRF x y)) o (corrected o r)))
      o.length
    if pyNeZero mse then
      match mathLog10R (maxAbs o), pyLog10 mse with
      | .ok a, .ok b => .ok (pySub (.fin (20 * a)) (pyMul (.fin 10) b))
      | .error e, _ => .error e
      | _, .error e => .error e
    else .ok .pinf

/-- Lines 45-49 of `PSNR`: an `int16` array is converted to float and
divided by the full-scale value 32768; a float array is left as it is. -/
noncomputable def toFloat32 (a : NPArray) : NPArray :=
  match a.dtype with
  | .i16 => ⟨.f32, a.data.map (fun x => x / 32768)⟩
  | .f32 => a

/-- The `PSNR` function of the script. -/
noncomputable def PSNR (o r : NPArray) : Except Unit PyF :=
  psnrScore (toFloat32 o).data (toFloat32 r).data

/-- `PSNR` together with the caller-visible state of the reconstructed
buffer after the call.  The in-place `reconstructedArray *= ...` on line 53
mutates the very array object the caller passed when the local name still
refers to it; for an `int16` input the local was rebound on line 49 to a
fresh `astype` copy, so the caller's array is untouched, while for a float
input the caller's array afterwards holds the range-corrected values. -/
noncomputable def PSNRrun (o r : NPArray) : Except Unit PyF × List PyF :=
  (PSNR o r,
    match r.dtype with
    | .i16 => r.data.map PyF.fin
    | .f32 => corrected (toFloat32 o).data r.data)

/-- Python `int()` on a finite float truncates toward zero. -/
noncomputable def pyInt (x : ℝ) : ℤ :=
  if 0 ≤ x then ⌊x⌋ else -⌊-x⌋

/-- The `hash` function of the script on an array of finite values:
`int(np.sum(np.abs(array))*2000) % int((2**16) - 1)`. -/
noncomputable def pyHash (l : List ℝ) : ℤ :=
  pyInt (sumAbs l * 2000) % 65535

/-- The `hash` function applied to a buffer that may hold non-finite
values (the range-corrected reconstruction): `int()` raises on NaN and on
the infinities, modelled with `Except`. -/
noncomputable def pyHashP (l : List PyF) : Except Unit ℤ :=
  match pyMul (pySumF (l.map pyAbs)) (.fin 2000) with
  | .fin x => .ok (pyInt x % 65535)
  | _ => .error ()

/-- The external steps of `MP3Reconstruct` that can raise, in program
order: `AudioSegment.from_wav`, `export(format=mp3)`,
`AudioSegment.from_mp3`, `export(format=wav)`, `scipy.io.wavfile.read`. -/
inductive Mp3Step
  | fromWav
  | exportMp3
  | fromMp3
  | exportWav
  | readWav
deriving DecidableEq

/-- `MP3Reconstruct`, lines 181-196.  `fail` says which external steps
raise; `decoded` is the array the successful path reads back.  The returned
Bool is whether the `./ReconstTemp` directory still exists when the call
finishes: `mkdir` runs first, the `rm -dR` runs only on the success path,
and there is no try/finally, so every failing step leaves the directory
behind. -/
def MP3Reconstruct (fail : Mp3Step → Bool) (decoded : NPArray) :
    Except Mp3Step NPArray × Bool :=
  if fail .fromWav then (.error .fromWav, true)
  else if fail .exportMp3 then (.error .exportMp3, true)
  else if fail .fromMp3 then (.error .fromMp3, true)
  else if fail .exportWav then (.error .exportWav, true)
  else if fail .readWav then (.error .readWav, true)
  else (.ok decoded, false)

/-- One entry of the `evaulators` list: the algorithm tag with its
additional parameter (lpc order for lilcom, bitrate label for MP3). -/
inductive Config
  | lilcom (lpcOrder : ℤ)
  | mp3 (bitrate : String)

/-- The evaluation result dictionary: bitrate, psnr and hash. -/
structure EvalResult where
  bitrate : ℤ
  psnr : PyF
  hash : ℤ

/-- The `evaluate` function, lines 199-255.  `lilcomRT` is the external
lilcom compress/decompress round trip; `mp3Fail` and `mp3Dec` parameterize
the external tools used by `MP3Reconstruct`.  There is no try/except, so a
raising codec, a raising `PSNR`, or a raising `hash` propagates out as
`.error`.  `hash` is applied to the same buffer `PSNR` received, after the
in-place range correction (see `PSNRrun`). -/
noncomputable def evaluate (lilcomRT : NPArray → ℤ → Except Unit NPArray)
    (mp3Fail : String → String → Mp3Step → Bool)
    (mp3Dec : String → String → NPArray)
    (sampleRate : ℤ) (filename : String) (audio : NPArray) :
    Config → Except Unit EvalResult
  | .lilcom p =>
    match lilcomRT audio p with
    | .error e => .error e
    | .ok r =>
      match (PSNRrun audio r).1, pyHashP (PSNRrun audio r).2 with
      | .ok s, .ok h => .ok ⟨8 * sampleRate, s, h⟩
      | .error e, _ => .error e
      | _, .error e => .error e
  | .mp3 b =>
    match (MP3Reconstruct (mp3Fail filename b) (mp3Dec filename b)).1 with
    | .error _ => .error ()
    | .ok r =>
      match (PSNRrun audio r).1, pyHashP (PSNRrun audio r).2 with
      | .ok s, .ok h => .ok ⟨((b.take 3).toInt?.getD 0) * 1000, s, h⟩
      | .error e, _ => .error e
      | _, .error e => .error e

/-- The inner loop of the driver over the `evaulators` list for one file:
results are appended in list order and an exception aborts the loop. -/
noncomputable def runRow (lilcomRT : NPArray → ℤ → Except Unit NPArray)
    (mp3Fail : String → String → Mp3Step → Bool)
    (mp3Dec : String → String → NPArray)
    (sampleRate : ℤ) (filename : String) (audio : NPArray) :
    List Config → Except Unit (List EvalResult)
  | [] => .ok []
  | c :: cs =>
    match evaluate lilcomRT mp3Fail mp3Dec sampleRate filename audio c with
    | .error e => .error e
    | .ok r =>
      match runRow lilcomRT mp3Fail mp3Dec sampleRate filename audio cs with
      | .error e => .error e
      | .ok rest => .ok (r :: rest)

/-- The outer loop of the driver, lines 381-392: rows of completed files
are emitted as processing goes; an uncaught exception from `evaluate`
aborts both loops, dropping the current and all remaining files.  The Bool
records whether the run aborted. -/
noncomputable def runAll (lilcomRT : NPArray → ℤ → Except Unit NPArray)
    (mp3Fail : String → String → Mp3Step → Bool)
    (mp3Dec : String → String → NPArray) (sampleRate : ℤ) :
    List (String × NPArray) → List Config →
      List (String × List EvalResult) × Bool
  | [], _ => ([], false)
  | (f, a) :: rest, cfgs =>
    match runRow lilcomRT mp3Fail mp3Dec sampleRate f a cfgs with
    | .ok row =>
      let t := runAll lilcomRT mp3Fail mp3Dec sampleRate rest cfgs
      ((f, row) :: t.1, t.2)
    | .error _ => ([], true)

/-- The `waveRead` function, lines 258-289, with the external resampler as
a parameter.  When a nonzero target rate differs from the native rate, only
the `int16` branch binds `downsampledArray`; for any other dtype the final
`return downsampledArray` raises `UnboundLocalError`, modelled as
`.error`. -/
noncomputable def waveRead (resample : List ℝ → ℤ → ℤ → List ℝ)
    (native : ℤ) (audio : NPArray) (sampleRate : ℤ) : Except Unit NPArray :=
  if sampleRate = 0 then .ok audio
  else if sampleRate ≠ native then
    match audio.dtype with
    | .i16 =>
      .ok ⟨.f32, resample (audio.data.map (fun x => x / 32768)) native sampleRate⟩
    | .f32 => .error ()
  else .ok audio

/-- The column-name stem `evaluator["algorithm"] + str(additionalParam)`. -/
def evName : Config → String
  | .lilcom p => "lilcom" ++ toString p
  | .mp3 b => "MP3" ++ b

/-- The header line built by `logger`, lines 101-114: `filename` and one
`-bitrate`/`-psnr`/`-hash` triple per evaluator, each column name followed
by a single tab. -/
def headerLine (evs : List Config) : String :=
  "filename" ++ "\t" ++
    String.join (evs.map (fun e =>
      evName e ++ "-bitrate" ++ "\t" ++
      evName e ++ "-psnr" ++ "\t" ++
      evName e ++ "-hash" ++ "\t"))

/-- The result line built by `logger`, lines 125-133: the filename then,
per evaluator, bitrate, formatted psnr and hash, each field followed by a
double tab.  The rendering of the psnr float by the format `%.2f` is
abstracted as the parameter `fmt`. -/
def resultRow (fmt : PyF → String) (filename : String)
    (results : List EvalResult) : String :=
  filename ++ "\t" ++
    String.join (results.map (fun r =>
      toString r.bitrate ++ "\t\t" ++
      fmt r.psnr ++ "\t\t" ++
      toString r.hash ++ "\t\t"))

/-- The CSV sink, lines 144-148: the same text with every tab replaced by
a comma. -/
def csvLine (s : String) : String := s.replace "\t" ","

/-- Modelled from the spec: the claimed normalization step in which, as
soon as either array is in fixed-point representation, both arrays are
divided by the full-scale value 32768 (the script instead converts each
array independently, only when that array itself is `int16`). -/
noncomputable def specNormalizeBoth (o r : NPArray) : List ℝ × List ℝ :=
  if o.dtype = .i16 ∨ r.dtype = .i16 then
    (o.data.map (fun x => x / 32768), r.data.map (fun x => x / 32768))
  else (o.data, r.data)

/-- Modelled from the spec: the claimed result-row layout in which fields
are separated by single tabs, mirroring the header structure. -/
def specRow (fmt : PyF → String) (filename : String)
    (results : List EvalResult) : String :=
  filename ++ "\t" ++
    String.join (results.map (fun r =>
      toString r.bitrate ++ "\t" ++
      fmt r.psnr ++ "\t" ++
      toString r.hash ++ "\t"))

/-- The real value of the corrected mean squared error when the dynamic
range factor is finite. -/
noncomputable def mseVal (o r : List ℝ) : ℝ :=
  sumSq (List.zipWith (fun x y => x - y)
    o (r.map (fun y => Real.sqrt (sumSq o / sumSq r) * y))) / o.length

lemma sumSq_cons (a : ℝ) (t : List ℝ) : sumSq (a :: t) = a ^ 2 + sumSq t := by
  simp [sumSq]

lemma sumSq_nonneg (l : List ℝ) : 0 ≤ sumSq l := by
  induction l with
  | nil => simp [sumSq]
  | cons a t ih => rw [sumSq_cons]; positivity

lemma sumSq_eq_zero_iff (l : List ℝ) : sumSq l = 0 ↔ ∀ x ∈ l, x = 0 := by
  induction l with
  | nil => simp [sumSq]
  | cons a t ih =>
    rw [sumSq_cons, add_eq_zero_iff_of_nonneg (by positivity) (sumSq_nonneg t)]
    simp [ih, pow_eq_zero_iff]

lemma sumSq_map_mul (k : ℝ) (l : List ℝ) :
    sumSq (l.map (fun x => k * x)) = k ^ 2 * sumSq l := by
  induction l with
  | nil => simp [sumSq]
  | cons a t ih => simp only [List.map_cons, sumSq_cons, ih]; ring

lemma sumAbs_nonneg (l : List ℝ) : 0 ≤ sumAbs l := by
  refine List.sum_nonneg ?_
  intro y hy
  simp only [List.mem_map] at hy
  obtain ⟨x, -, rfl⟩ := hy
  positivity

lemma le_foldl_max (l : List ℝ) : ∀ a : ℝ, a ≤ l.foldl max a := by
  induction l with
  | nil => intro a; simp
  | cons b t ih => intro a; exact le_trans (le_max_left a b) (ih (max a b))

lemma mem_le_foldl_max {x : ℝ} {l : List ℝ} (hx : x ∈ l) :
    ∀ a : ℝ, x ≤ l.foldl max a := by
  induction l with
  | nil => cases hx
  | cons b t ih =>
    intro a
    rcases List.mem_cons.mp hx with h | h
    · subst h; exact le_trans (le_max_right a x) (le_foldl_max t (max a x))
    · exact ih h (max a b)

lemma maxAbs_nonneg (l : List ℝ) : 0 ≤ maxAbs l := le_foldl_max _ 0

lemma abs_le_maxAbs {x : ℝ} {l : List ℝ} (hx : x ∈ l) : |x| ≤ maxAbs l :=
  mem_le_foldl_max (List.mem_map_of_mem (fun y => |y|) hx) 0

lemma maxAbs_pos {l : List ℝ} (h : ∃ x ∈ l, x ≠ 0) : 0 < maxAbs l := by
  obtain ⟨x, hx, hx0⟩ := h
  exact lt_of_lt_of_le (abs_pos.mpr hx0) (abs_le_maxAbs hx)

lemma foldl_pyAdd_fin (m : List ℝ) :
    ∀ a : ℝ, (m.map PyF.fin).foldl pyAdd (.fin a) = .fin (a + m.sum) := by
  induction m with
  | nil => intro a; simp
  | cons b t ih =>
    intro a
    simp only [List.map_cons, List.foldl_cons, List.sum_cons, pyAdd, ih]
    ring_nf

lemma pySumF_map_fin (m : List ℝ) : pySumF (m.map PyF.fin) = .fin m.sum := by
  simp [pySumF, foldl_pyAdd_fin]

lemma zip_sq_fin (o m : List ℝ) :
    List.zipWith (fun x y => pySq (pySubRF x y)) o (m.map PyF.fin)
      = (List.zipWith (fun x y => (x - y) ^ 2) o m).map PyF.fin := by
  induction o generalizing m with
  | nil => simp
  | cons a t ih =>
    cases m with
    | nil => simp
    | cons b s =>
      simp only [List.map_cons, List.zipWith_cons_cons]
      rw [ih]
      congr 1
      simp only [pySq, pySubRF, pySub, pyNeg, pyAdd, pyMul]
      congr 1
      ring

lemma corrFactor_fin {o r : List ℝ} (hr : sumSq r ≠ 0) :
    corrFactor (sumSq o) (sumSq r) = .fin (Real.sqrt (sumSq o / sumSq r)) := by
  unfold corrFactor
  rw [if_neg hr, if_neg]
  exact not_lt.mpr (div_nonneg (sumSq_nonneg o) (sumSq_nonneg r))

lemma corrected_eq {o r : List ℝ} (hr : sumSq r ≠ 0) :
    corrected o r
      = (r.map (fun x => Real.sqrt (sumSq o / sumSq r) * x)).map PyF.fin := by
  unfold corrected
  rw [corrFactor_fin hr]
  simp [pyMulF, pyMul, List.map_map, Function.comp]

lemma mse_fin {o r : List ℝ} (ho : o ≠ []) (hr : sumSq r ≠ 0) :
    pyDivNat
      (pySumF (List.zipWith (fun x y => pySq (pySubRF x y)) o (corrected o r)))
      o.length = .fin (mseVal o r) := by
  rw [corrected_eq hr, zip_sq_fin, pySumF_map_fin]
  have hn : o.length ≠ 0 := by simpa [List.length_eq_zero] using ho
  simp only [pyDivNat, hn, if_neg, ite_false]
  congr 1
  simp [mseVal, sumSq, List.map_zipWith]

lemma mseVal_nonneg (o r : List ℝ) : 0 ≤ mseVal o r :=
  div_nonneg (sumSq_nonneg _) (Nat.cast_nonneg _)

lemma psnrScore_pinf {o r : List ℝ} (ho : o ≠ []) (hr : sumSq r ≠ 0)
    (hm : mseVal o r = 0) : psnrScore o r = .ok .pinf := by
  unfold psnrScore
  rw [if_neg ho]
  simp only [mse_fin ho hr, hm, pyNeZero]
  simp

lemma psnrScore_formula {o r : List ℝ} (ho : o ≠ []) (hr : sumSq r ≠ 0)
    (hm : mseVal o r ≠ 0) (hmax : 0 < maxAbs o) :
    psnrScore o r
      = .ok (.fin (20 * Real.logb 10 (maxAbs o)
          - 10 * Real.logb 10 (mseVal o r))) := by
  have hmpos : 0 < mseVal o r := lt_of_le_of_ne (mseVal_nonneg o r) (Ne.symm hm)
  unfold psnrScore
  rw [if_neg ho]
  simp only [mse_fin ho hr, pyNeZero, hm, ite_false, ite_true, if_pos,
    mathLog10R, pyLog10, not_le.mpr hmax, not_le.mpr hmpos]
  simp [pySub, pyNeg, pyAdd, pyMul, sub_eq_add_neg, not_le.mpr hmax,
    not_le.mpr hmpos]

lemma sumSq_zipWith_self (l : List ℝ) :
    sumSq (List.zipWith (fun x y => x - y) l l) = 0 := by
  have h : List.zipWith (fun x y : ℝ => x - y) l l = List.replicate l.length 0 := by
    induction l with
    | nil => rfl
    | cons a t ih => simp [List.replicate_succ, ih]
  rw [h]
  simp [sumSq, List.map_replicate, List.sum_replicate]

lemma psnrScore_exact {o r : List ℝ} (ho : o ≠ []) (hr : sumSq r ≠ 0)
    (hc : r.map (fun x => Real.sqrt (sumSq o / sumSq r) * x) = o) :
    psnrScore o r = .ok .pinf := by
  refine psnrScore_pinf ho hr ?_
  unfold mseVal
  rw [hc, sumSq_zipWith_self]
  simp

lemma pyHashP_map_fin (l : List ℝ) : pyHashP (l.map PyF.fin) = .ok (pyHash l) := by
  unfold pyHashP
  have habs : (l.map PyF.fin).map pyAbs = (l.map (fun x => |x|)).map PyF.fin := by
    simp [List.map_map, Function.comp, pyAbs]
  rw [habs, pySumF_map_fin]
  simp [pyMul, pyHash, sumAbs]

/-- Claim C1: the script is claimed to treat the zero-division of the
dynamic-range correction on a silent reconstruction as a defined, reported
error state, never returning NaN.  The code has no such guard: on the
original `[1.0]` against the silent reconstruction `[0.0]` the division
yields `inf`, the corrected array becomes NaN, and `PSNR` returns NaN. -/
theorem psnr_silent_reconstruction_nan :
    PSNR ⟨.f32, [1]⟩ ⟨.f32, [0]⟩ = .ok .nan := by
  norm_num [PSNR, toFloat32, psnrScore, corrected, corrFactor, sumSq, maxAbs,
    pySumF, pyDivNat, pyNeZero, mathLog10R, pyLog10, pySub, pyNeg, pyAdd,
    pySq, pyMul, pySubRF, pyMulF]

/-- Claim C4: the fingerprint equals `floor(sum(|r|) * 2000) mod (2^16 - 1)`
and always lies in `[0, 2^16 - 2]`. -/
theorem hash_formula_and_range (l : List ℝ) :
    pyHash l = ⌊sumAbs l * 2000⌋ % (2 ^ 16 - 1) ∧
    0 ≤ pyHash l ∧ pyHash l ≤ 2 ^ 16 - 2 := by
  have hnn : (0:ℝ) ≤ sumAbs l * 2000 :=
    mul_nonneg (sumAbs_nonneg l) (by norm_num)
  have h1 : pyHash l = ⌊sumAbs l * 2000⌋ % 65535 := by
    rw [pyHash, pyInt, if_pos hnn]
  refine ⟨by rw [h1]; norm_num, ?_, ?_⟩
  · rw [h1]
    exact Int.emod_nonneg _ (by norm_num)
  · rw [h1]
    have := Int.emod_lt_of_pos (⌊sumAbs l * 2000⌋)
      (show (0:ℤ) < 65535 by norm_num)
    omega

/-- Claim C6: the MP3 adapter is claimed to remove its temporary directory
on every exit path.  In the code the `rm` runs only after all five external
steps succeed; when the external MP3 encode step raises, the error
propagates with the directory still present (second component `true`),
while the success path does remove it. -/
theorem mp3_temp_dir_left_on_failure :
    MP3Reconstruct (fun s => decide (s = Mp3Step.exportMp3)) ⟨.f32, []⟩
      = (.error .exportMp3, true) ∧
    MP3Reconstruct (fun _ => false) ⟨.f32, []⟩ = (.ok ⟨.f32, []⟩, false) := by
  constructor <;> rfl

/-- Claim C7: a codec failure for one (file, config) pair is claimed to be
recorded as a failed result while evaluation continues.  In the code
`evaluate` has no try/except: with two files and two configs, a lilcom
round-trip failure on the very first pair aborts the whole run, recording
no result for any of the other three pairs. -/
theorem run_aborts_on_codec_failure :
    runAll (fun _ _ => .error ()) (fun _ _ _ => false) (fun _ _ => ⟨.f32, []⟩)
      0 [("a.wav", ⟨.f32, [1]⟩), ("b.wav", ⟨.f32, [1]⟩)]
      [.lilcom 4, .mp3 "320k"] = ([], true) := by
  rfl

/-- Claim C10: with a nonzero target sample rate different from the native
rate, `waveRead` resamples only 16-bit fixed-point input; for any other
dtype the result variable is never bound and the final return raises an
uncaught `UnboundLocalError`. -/
theorem waveRead_resample_only_i16 (resample : List ℝ → ℤ → ℤ → List ℝ)
    (native sr : ℤ) (audio : NPArray) (h0 : sr ≠ 0) (hne : sr ≠ native) :
    (audio.dtype = .f32 → waveRead resample native audio sr = .error ()) ∧
    (audio.dtype = .i16 → waveRead resample native audio sr
        = .ok ⟨.f32, resample (audio.data.map (fun x => x / 32768)) native sr⟩)
    := by
  unfold waveRead
  rw [if_neg h0, if_pos hne]
  obtain ⟨dt, data⟩ := audio
  cases dt <;> simp

/-- Witness for C10 at a concrete float-dtype input. -/
theorem waveRead_resample_only_i16_witness :
    waveRead (fun l _ _ => l) 16000 ⟨.f32, [1]⟩ 8000 = .error () :=
  (waveRead_resample_only_i16 (fun l _ _ => l) 16000 8000 ⟨.f32, [1]⟩
    (by norm_num) (by norm_num)).1 rfl

lemma PSNR_f32 (o r : List ℝ) : PSNR ⟨.f32, o⟩ ⟨.f32, r⟩ = psnrScore o r := rfl

lemma sumSq_ne_zero_of_mem {o : List ℝ} (ho : ∃ x ∈ o, x ≠ 0) : sumSq o ≠ 0 := by
  intro h
  obtain ⟨x, hx, hx0⟩ := ho
  exact hx0 ((sumSq_eq_zero_iff o).mp h x hx)

lemma ne_nil_of_mem {o : List ℝ} (ho : ∃ x ∈ o, x ≠ 0) : o ≠ [] := by
  rintro rfl
  obtain ⟨x, hx, -⟩ := ho
  cases hx

lemma sumSq_zip_zero (o m : List ℝ) (hz : ∀ x ∈ o, x = 0) :
    sumSq (List.zipWith (fun x y => x - y) o (m.map (fun _ => (0:ℝ)))) = 0 := by
  induction o generalizing m with
  | nil => simp [sumSq]
  | cons a t ih =>
    cases m with
    | nil => simp [sumSq]
    | cons b s =>
      simp only [List.map_cons, List.zipWith_cons_cons, sumSq_cons]
      rw [hz a (by simp), ih s (fun x hx => hz x (by simp [hx]))]
      norm_num

/-- Claim C2 counterexample: the scale invariance claimed for every nonzero
scalar fails for `k = -1`.  The correction factor is `1/|k|`, so the
corrected reconstruction of `k·o` is `sign(k)·o`: for `o = [1]` and
`k = -1` the score is finite while `score(o, o)` is the infinite
sentinel. -/
theorem psnr_scale_invariance_fails_neg :
    PSNR ⟨.f32, [1]⟩ ⟨.f32, [-1]⟩ ≠ PSNR ⟨.f32, [1]⟩ ⟨.f32, [1]⟩ := by
  have h1 : PSNR ⟨.f32, [1]⟩ ⟨.f32, [1]⟩ = .ok .pinf := by
    rw [PSNR_f32]
    exact psnrScore_exact (by simp) (by norm_num [sumSq])
      (by norm_num [sumSq, Real.sqrt_one])
  have h2 : PSNR ⟨.f32, [1]⟩ ⟨.f32, [-1]⟩
      = .ok (.fin (20 * Real.logb 10 (maxAbs [1])
          - 10 * Real.logb 10 (mseVal [1] [-1]))) := by
    rw [PSNR_f32]
    refine psnrScore_formula (by simp) (by norm_num [sumSq]) ?_ ?_
    · norm_num [mseVal, sumSq, Real.sqrt_one]
    · norm_num [maxAbs]
  rw [h2, h1]
  simp

/-- Claim C2 as amended: the fidelity score is invariant to uniform level
scaling of the reconstruction by any positive scalar `k`; for negative
scalars the dynamic-range correction recovers `-o` rather than `o` and the
invariance fails (see the counterexample). -/
theorem psnr_scale_invariance_pos (o : List ℝ) (k : ℝ) (hk : 0 < k)
    (ho : ∃ x ∈ o, x ≠ 0) :
    PSNR ⟨.f32, o⟩ ⟨.f32, o.map (fun x => k * x)⟩
      = PSNR ⟨.f32, o⟩ ⟨.f32, o⟩ := by
  have hne : o ≠ [] := ne_nil_of_mem ho
  have hSo : sumSq o ≠ 0 := sumSq_ne_zero_of_mem ho
  have hk0 : k ≠ 0 := ne_of_gt hk
  have hrhs : PSNR ⟨.f32, o⟩ ⟨.f32, o⟩ = .ok .pinf := by
    rw [PSNR_f32]
    exact psnrScore_exact hne hSo (by rw [div_self hSo, Real.sqrt_one]; simp)
  have hSr : sumSq (o.map (fun x => k * x)) = k ^ 2 * sumSq o :=
    sumSq_map_mul k o
  have hSr0 : sumSq (o.map (fun x => k * x)) ≠ 0 := by
    rw [hSr]
    exact mul_ne_zero (pow_ne_zero 2 hk0) hSo
  have hlhs : PSNR ⟨.f32, o⟩ ⟨.f32, o.map (fun x => k * x)⟩ = .ok .pinf := by
    rw [PSNR_f32]
    refine psnrScore_exact hne hSr0 ?_
    rw [hSr]
    have hq : sumSq o / (k ^ 2 * sumSq o) = (1 / k) ^ 2 := by
      field_simp
      ring
    rw [hq, Real.sqrt_sq (by positivity), List.map_map]
    have hid : ((fun x => 1 / k * x) ∘ fun x => k * x) = id := by
      funext x
      field_simp
    rw [hid, List.map_id]
  rw [hlhs, hrhs]

/-- Witness for C2 at `o = [1]`, `k = 2`. -/
theorem psnr_scale_invariance_pos_witness :
    PSNR ⟨.f32, [1]⟩ ⟨.f32, ([1] : List ℝ).map (fun x => 2 * x)⟩
      = PSNR ⟨.f32, [1]⟩ ⟨.f32, [1]⟩ :=
  psnr_scale_invariance_pos [1] 2 (by norm_num) (by norm_num)

/-- Claim C3: for a nonzero signal the score of the exact reconstruction is
the infinite sentinel, and whenever the corrected mean squared error is
nonzero the score is `20·log10(max|o|) - 10·log10(mse)` in decibels. -/
theorem psnr_exact_and_formula :
    (∀ o : List ℝ, (∃ x ∈ o, x ≠ 0) →
      PSNR ⟨.f32, o⟩ ⟨.f32, o⟩ = .ok .pinf) ∧
    (∀ o r : List ℝ, o ≠ [] → sumSq r ≠ 0 → mseVal o r ≠ 0 →
      PSNR ⟨.f32, o⟩ ⟨.f32, r⟩
        = .ok (.fin (20 * Real.logb 10 (maxAbs o)
            - 10 * Real.logb 10 (mseVal o r)))) := by
  constructor
  · intro o ho
    rw [PSNR_f32]
    exact psnrScore_exact (ne_nil_of_mem ho) (sumSq_ne_zero_of_mem ho)
      (by rw [div_self (sumSq_ne_zero_of_mem ho), Real.sqrt_one]; simp)
  · intro o r ho hr hm
    have hmax : 0 < maxAbs o := by
      rcases lt_or_eq_of_le (maxAbs_nonneg o) with h | h
      · exact h
      · exfalso
        apply hm
        have hz : ∀ x ∈ o, x = 0 := by
          intro x hx
          have := abs_le_maxAbs hx
          rw [← h] at this
          exact abs_eq_zero.mp (le_antisymm this (abs_nonneg x))
        have hSo : sumSq o = 0 := (sumSq_eq_zero_iff o).mpr hz
        unfold mseVal
        rw [hSo, zero_div, Real.sqrt_zero]
        simp only [zero_mul]
        rw [sumSq_zip_zero o r hz, zero_div]
    rw [PSNR_f32]
    exact psnrScore_formula ho hr hm hmax

/-- Witness for C3: exactness at `o = [1]` and the decibel formula at
`o = [3, 0]`, `r = [0, 3]`. -/
theorem psnr_exact_and_formula_witness :
    PSNR ⟨.f32, [1]⟩ ⟨.f32, [1]⟩ = .ok .pinf ∧
    PSNR ⟨.f32, [3, 0]⟩ ⟨.f32, [0, 3]⟩
      = .ok (.fin (20 * Real.logb 10 (maxAbs [3, 0])
          - 10 * Real.logb 10 (mseVal [3, 0] [0, 3]))) := by
  constructor
  · exact psnr_exact_and_formula.1 [1] (by norm_num)
  · refine psnr_exact_and_formula.2 [3, 0] [0, 3] (by simp)
      (by norm_num [sumSq]) ?_
    norm_num [mseVal, sumSq, Real.sqrt_one]

/-- Claim C5 counterexample: when the original is `int16` and the
reconstruction is already float, the claimed step would divide both by
32768, but the script divides only the `int16` array and leaves the float
array untouched. -/
theorem normalize_both_fails :
    specNormalizeBoth ⟨.i16, [16384]⟩ ⟨.f32, [1/2]⟩
      ≠ ((toFloat32 ⟨.i16, [16384]⟩).data, (toFloat32 ⟨.f32, [1/2]⟩).data) := by
  norm_num [specNormalizeBoth, toFloat32, Prod.ext_iff]

/-- Claim C5 as amended: before the dynamic-range correction each array
that is in 16-bit fixed-point representation is converted to float and
divided by the full-scale value 32768 (landing in [-1, 1] when its samples
respect the 16-bit range), while an array already in floating point is used
unchanged; both arrays are floating point afterwards. -/
theorem normalize_fixed_point_only (o r : NPArray) :
    PSNR o r = psnrScore (toFloat32 o).data (toFloat32 r).data ∧
    (toFloat32 o).dtype = .f32 ∧
    (toFloat32 r).dtype = .f32 ∧
    (o.dtype = .i16 → (toFloat32 o).data = o.data.map (fun x => x / 32768)) ∧
    (o.dtype = .f32 → (toFloat32 o).data = o.data) ∧
    (r.dtype = .i16 → (toFloat32 r).data = r.data.map (fun x => x / 32768)) ∧
    (r.dtype = .f32 → (toFloat32 r).data = r.data) ∧
    (o.dtype = .i16 → (∀ x ∈ o.data, |x| ≤ 32768) →
      ∀ y ∈ (toFloat32 o).data, |y| ≤ 1) := by
  obtain ⟨dto, dato⟩ := o
  obtain ⟨dtr, datr⟩ := r
  refine ⟨rfl, ?_, ?_, ?_, ?_, ?_, ?_, ?_⟩
  · cases dto <;> rfl
  · cases dtr <;> rfl
  · cases dto <;> simp [toFloat32]
  · cases dto <;> simp [toFloat32]
  · cases dtr <;> simp [toFloat32]
  · cases dtr <;> simp [toFloat32]
  · cases dto
    · intro _ hb y hy
      simp only [toFloat32, List.mem_map] at hy
      obtain ⟨x, hx, rfl⟩ := hy
      rw [abs_div, abs_of_pos (show (0:ℝ) < 32768 by norm_num)]
      exact (div_le_one (by norm_num)).mpr (hb x hx)
    · intro h
      exact absurd h (by simp)

/-- Witness for C5 at an `int16` original `[16384]` and a float
reconstruction `[1/2]`. -/
theorem normalize_fixed_point_only_witness :
    (toFloat32 (⟨.i16, [16384]⟩ : NPArray)).data
        = ([16384] : List ℝ).map (fun x => x / 32768) ∧
    (toFloat32 (⟨.f32, [1/2]⟩ : NPArray)).data = [1/2] ∧
    ∀ y ∈ (toFloat32 (⟨.i16, [16384]⟩ : NPArray)).data, |y| ≤ 1 := by
  refine ⟨(normalize_fixed_point_only ⟨.i16, [16384]⟩ ⟨.f32, [1/2]⟩).2.2.2.1 rfl,
    (normalize_fixed_point_only ⟨.i16, [16384]⟩ ⟨.f32, [1/2]⟩).2.2.2.2.2.2.1 rfl,
    (normalize_fixed_point_only ⟨.i16, [16384]⟩ ⟨.f32, [1/2]⟩).2.2.2.2.2.2.2
      rfl ?_⟩
  intro x hx
  simp only [List.mem_singleton] at hx
  rw [hx]
  norm_num

lemma toFloat32_of_f32 {a : NPArray} (h : a.dtype = .f32) : toFloat32 a = a := by
  obtain ⟨dt, d⟩ := a
  simp only at h
  subst h
  rfl

lemma psnrScore_ok {o r : List ℝ} (ho : o ≠ []) (hmax : 0 < maxAbs o)
    (hr : sumSq r ≠ 0) : ∃ s, psnrScore o r = .ok s := by
  rcases eq_or_ne (mseVal o r) 0 with hm | hm
  · exact ⟨.pinf, psnrScore_pinf ho hr hm⟩
  · exact ⟨_, psnrScore_formula ho hr hm hmax⟩

lemma PSNRrun_fst (o r : NPArray) : (PSNRrun o r).1 = PSNR o r := rfl

/-- Claim C9: for a float reconstruction, `PSNR` rescales the caller's
array in place, so in the lilcom branch of `evaluate` the reported hash is
the fingerprint of the range-corrected reconstruction `c·r` with
`c = sqrt(sum(o²)/sum(r²))`, not of the raw decompressor output. -/
theorem lilcom_hash_of_corrected
    (lilcomRT : NPArray → ℤ → Except Unit NPArray)
    (mp3Fail : String → String → Mp3Step → Bool)
    (mp3Dec : String → String → NPArray)
    (rate : ℤ) (filename : String) (audio r : NPArray) (p : ℤ)
    (hrt : lilcomRT audio p = .ok r) (hdt : r.dtype = .f32)
    (ha : ∃ x ∈ (toFloat32 audio).data, x ≠ 0)
    (hr : sumSq r.data ≠ 0) :
    (evaluate lilcomRT mp3Fail mp3Dec rate filename audio (.lilcom p)).map
        (fun e => e.hash)
      = .ok (pyHash (r.data.map (fun x =>
          Real.sqrt (sumSq (toFloat32 audio).data / sumSq r.data) * x))) := by
  have hbuf : (PSNRrun audio r).2
      = (r.data.map (fun x =>
          Real.sqrt (sumSq (toFloat32 audio).data / sumSq r.data) * x)).map
            PyF.fin := by
    unfold PSNRrun
    rw [hdt]
    exact corrected_eq hr
  have hps : PSNR audio r
      = psnrScore (toFloat32 audio).data r.data := by
    rw [PSNR, toFloat32_of_f32 hdt]
  obtain ⟨s, hs⟩ := psnrScore_ok (ne_nil_of_mem ha) (maxAbs_pos ha) hr
  simp only [evaluate, hrt]
  rw [PSNRrun_fst, hps, hs, hbuf, pyHashP_map_fin]
  rfl

/-- Witness for C9: a one-sample float original `[3]` whose round trip
returns `[1]`. -/
theorem lilcom_hash_of_corrected_witness :
    (evaluate (fun _ _ => .ok ⟨.f32, [1]⟩) (fun _ _ _ => false)
        (fun _ _ => ⟨.f32, []⟩) 16000 "a.wav" ⟨.f32, [3]⟩ (.lilcom 4)).map
          (fun e => e.hash)
      = .ok (pyHash ((⟨.f32, [1]⟩ : NPArray).data.map (fun x =>
          Real.sqrt (sumSq (toFloat32 ⟨.f32, [3]⟩).data
            / sumSq (⟨.f32, [1]⟩ : NPArray).data) * x))) := by
  refine lilcom_hash_of_corrected _ _ _ 16000 "a.wav" ⟨.f32, [3]⟩ ⟨.f32, [1]⟩ 4
    rfl rfl ⟨3, by simp [toFloat32], by norm_num⟩ ?_
  norm_num [sumSq]

lemma runRow_length (lilcomRT : NPArray → ℤ → Except Unit NPArray)
    (mp3Fail : String → String → Mp3Step → Bool)
    (mp3Dec : String → String → NPArray)
    (sampleRate : ℤ) (filename : String) (audio : NPArray) :
    ∀ (cfgs : List Config) (l : List EvalResult),
      runRow lilcomRT mp3Fail mp3Dec sampleRate filename audio cfgs = .ok l →
      l.length = cfgs.length := by
  intro cfgs
  induction cfgs with
  | nil =>
    intro l h
    simp only [runRow] at h
    cases h
    rfl
  | cons c cs ih =>
    intro l h
    simp only [runRow] at h
    cases he : evaluate lilcomRT mp3Fail mp3Dec sampleRate filename audio c with
    | error e =>
      rw [he] at h
      cases h
    | ok r =>
      rw [he] at h
      cases hrr : runRow lilcomRT mp3Fail mp3Dec sampleRate filename audio cs with
      | error e2 =>
        rw [hrr] at h
        cases h
      | ok rest =>
        rw [hrr] at h
        cases h
        simp [ih rest hrr]

lemma runAll_row_length (lilcomRT : NPArray → ℤ → Except Unit NPArray)
    (mp3Fail : String → String → Mp3Step → Bool)
    (mp3Dec : String → String → NPArray) (rate : ℤ) :
    ∀ (files : List (String × NPArray)) (cfgs : List Config),
      ∀ p ∈ (runAll lilcomRT mp3Fail mp3Dec rate files cfgs).1,
        p.2.length = cfgs.length := by
  intro files
  induction files with
  | nil =>
    intro cfgs p hp
    simp [runAll] at hp
  | cons fa rest ih =>
    intro cfgs p hp
    obtain ⟨f, a⟩ := fa
    simp only [runAll] at hp
    cases hrr : runRow lilcomRT mp3Fail mp3Dec rate f a cfgs with
    | error e =>
      rw [hrr] at hp
      simp at hp
    | ok row =>
      rw [hrr] at hp
      simp only [List.mem_cons] at hp
      rcases hp with rfl | hp
      · exact runRow_length lilcomRT mp3Fail mp3Dec rate f a cfgs row hrr
      · exact ih cfgs p hp

/-- Claim C8 counterexample: a result row does not have the header's
single-tab delimiter structure; with one evaluator and concrete fields the
row built by the logger differs from the single-tab layout the spec
describes, because each row field is followed by two tabs. -/
theorem row_single_tab_fails :
    resultRow (fun _ => "0.00") "a.wav" [⟨0, .pinf, 0⟩]
      ≠ specRow (fun _ => "0.00") "a.wav" [⟨0, .pinf, 0⟩] := by
  decide

/-- Claim C8 as amended: every emitted row holds the filename and then one
(bitrate, psnr, hash) triplet per configured evaluator in configuration
order, but row fields are each followed by a double tab while the header
uses single tabs; the CSV sink is the same text with every tab replaced by
a comma (hence double commas inside rows). -/
theorem row_double_tab_structure (lilcomRT : NPArray → ℤ → Except Unit NPArray)
    (mp3Fail : String → String → Mp3Step → Bool)
    (mp3Dec : String → String → NPArray) (rate : ℤ)
    (files : List (String × NPArray)) (cfgs : List Config)
    (fmt : PyF → String) :
    ∀ p ∈ (runAll lilcomRT mp3Fail mp3Dec rate files cfgs).1,
      p.2.length = cfgs.length ∧
      resultRow fmt p.1 p.2
        = p.1 ++ "\t" ++ String.join (p.2.map (fun e =>
            toString e.bitrate ++ "\t\t" ++ fmt e.psnr ++ "\t\t"
              ++ toString e.hash ++ "\t\t")) ∧
      headerLine cfgs
        = "filename" ++ "\t" ++ String.join (cfgs.map (fun e =>
            evName e ++ "-bitrate" ++ "\t" ++ evName e ++ "-psnr" ++ "\t"
              ++ evName e ++ "-hash" ++ "\t")) ∧
      csvLine (resultRow fmt p.1 p.2)
        = (resultRow fmt p.1 p.2).replace "\t" "," := by
  intro p hp
  exact ⟨runAll_row_length lilcomRT mp3Fail mp3Dec rate files cfgs p hp,
    rfl, rfl, rfl⟩

/-- Witness for C8: one file and one evaluator configuration, with the
round trip returning the original `[1]`, give a run with exactly one row
holding one result triplet. -/
theorem row_double_tab_structure_witness :
    ([⟨0, PyF.pinf, 2000⟩] : List EvalResult).length
        = ([Config.lilcom 4] : List Config).length ∧
    resultRow (fun _ => "inf") "a.wav" [⟨0, PyF.pinf, 2000⟩]
      = "a.wav" ++ "\t" ++ String.join
          (([⟨0, PyF.pinf, 2000⟩] : List EvalResult).map (fun e =>
            toString e.bitrate ++ "\t\t" ++ (fun _ : PyF => "inf") e.psnr
              ++ "\t\t" ++ toString e.hash ++ "\t\t")) ∧
    headerLine [Config.lilcom 4]
      = "filename" ++ "\t" ++ String.join
          (([Config.lilcom 4] : List Config).map (fun e =>
            evName e ++ "-bitrate" ++ "\t" ++ evName e ++ "-psnr" ++ "\t"
              ++ evName e ++ "-hash" ++ "\t")) ∧
    csvLine (resultRow (fun _ => "inf") "a.wav" [⟨0, PyF.pinf, 2000⟩])
      = (resultRow (fun _ => "inf") "a.wav" [⟨0, PyF.pinf, 2000⟩]).replace
          "\t" "," := by
  have hps : PSNR ⟨.f32, [1]⟩ ⟨.f32, [1]⟩ = .ok .pinf := by
    rw [PSNR_f32]
    exact psnrScore_exact (by simp) (by norm_num [sumSq])
      (by norm_num [sumSq, Real.sqrt_one])
  have hbuf : (PSNRrun ⟨.f32, [1]⟩ ⟨.f32, [1]⟩).2 = [PyF.fin 1] := by
    show corrected [1] [1] = [PyF.fin 1]
    rw [corrected_eq (show sumSq [1] ≠ 0 by norm_num [sumSq])]
    norm_num [sumSq, Real.sqrt_one]
  have hhash : pyHashP [PyF.fin 1] = .ok 2000 := by
    rw [show [PyF.fin 1] = ([1] : List ℝ).map PyF.fin by simp, pyHashP_map_fin]
    norm_num [pyHash, pyInt, sumAbs]
  have heval : evaluate (fun _ _ => .ok ⟨.f32, [1]⟩) (fun _ _ _ => false)
      (fun _ _ => ⟨.f32, []⟩) 0 "a.wav" ⟨.f32, [1]⟩ (.lilcom 4)
      = .ok ⟨0, PyF.pinf, 2000⟩ := by
    simp only [evaluate, PSNRrun_fst, hps, hbuf, hhash]
    norm_num
  have hrow : runRow (fun _ _ => .ok ⟨.f32, [1]⟩) (fun _ _ _ => false)
      (fun _ _ => ⟨.f32, []⟩) 0 "a.wav" ⟨.f32, [1]⟩ [.lilcom 4]
      = .ok [⟨0, PyF.pinf, 2000⟩] := by
    simp only [runRow, heval]
  have hrun : runAll (fun _ _ => .ok ⟨.f32, [1]⟩) (fun _ _ _ => false)
      (fun _ _ => ⟨.f32, []⟩) 0 [("a.wav", ⟨.f32, [1]⟩)] [.lilcom 4]
      = ([("a.wav", [⟨0, PyF.pinf, 2000⟩])], false) := by
    simp only [runAll, hrow]
  exact row_double_tab_structure (fun _ _ => .ok ⟨.f32, [1]⟩)
    (fun _ _ _ => false) (fun _ _ => ⟨.f32, []⟩) 0
    [("a.wav", ⟨.f32, [1]⟩)] [.lilcom 4] (fun _ => "inf")
    ("a.wav", [⟨0, PyF.pinf, 2000⟩]) (by rw [hrun]; simp)
